import Mathlib

/-!
Verification of the snake-ai move-search engine (src/main.py): the
`GameState` grid-game abstraction, the snake-head scanner, and the UCT
Monte-Carlo tree search.  Python deques of positions are embedded as Lean
lists (head of the list = head of the snake); mutable state is passed
explicitly; code paths that raise an exception in Python are embedded as
`Option`, with `none` marking the raise.
-/

namespace SnakeAI

/-- Integer grid coordinate, mirroring `snakepit.datatypes.Position`. -/
structure Position where
  x : Int
  y : Int
deriving DecidableEq, Repr

/-- Integer direction delta, mirroring `snakepit.datatypes.Vector`. -/
structure Vector where
  xdir : Int
  ydir : Int
deriving DecidableEq, Repr

/-- Modelled from the spec: the four canonical direction vectors
(`RobotSnake.UP/DOWN/LEFT/RIGHT`) come from the external snakepit base
class; the spec requires four distinct directions forming two opposite
pairs. -/
def UP : Vector := ⟨0, -1⟩

/-- Modelled from the spec: canonical downward direction. -/
def DOWN : Vector := ⟨0, 1⟩

/-- Modelled from the spec: canonical leftward direction. -/
def LEFT : Vector := ⟨-1, 0⟩

/-- Modelled from the spec: canonical rightward direction. -/
def RIGHT : Vector := ⟨1, 0⟩

/-- `Actions = {RobotSnake.UP, RobotSnake.DOWN, RobotSnake.LEFT, RobotSnake.RIGHT}`
from src/main.py, embedded as a duplicate-free list. -/
def Actions : List Vector := [UP, DOWN, LEFT, RIGHT]

/-- Modelled from the spec: the head symbol constant `RobotSnake.CH_HEAD`
supplied by the external base class. -/
def CH_HEAD : Char := '@'

/-- Modelled from the spec: the stone symbol constant `RobotSnake.CH_STONE`
supplied by the external base class. -/
def CH_STONE : Char := '#'

/-- Modelled from the spec: the dead-body marker characters
`RobotSnake.DEAD_BODY_CHARS` supplied by the external base class ("one or
more dead-body markers"). -/
def DEAD_BODY_CHARS : List Char := ['%']

/-- The obstacle set `{RobotSnake.CH_STONE, '-', '|', '+'}.union(RobotSnake.DEAD_BODY_CHARS)`
tested by `GameState.do_move`. -/
def obstacleChars : List Char := [CH_STONE, '-', '|', '+'] ++ DEAD_BODY_CHARS

/-- Python `int(char)` for a digit character. -/
def digitVal (c : Char) : Int := ((c.toNat - '0'.toNat : Nat) : Int)

/-- A state of the grid game (`GameState` in src/main.py).  The terrain is
the world snapshot, a function from the two indices to a (symbol, color)
cell; `players` is the list of body chains, head first. -/
structure GameState where
  playerJustMoved : Nat
  terrain : Int → Int → Char × Int
  players : List (List Position)
  last_action : List (Option Vector)
  scores : List Int

/-- `GameState.__init__`: `playerJustMoved = 1`, `last_action = [None, None]`,
`scores = [0, 0]`. -/
def GameState.init (terrain : Int → Int → Char × Int)
    (players : List (List Position)) : GameState :=
  { playerJustMoved := 1, terrain := terrain, players := players,
    last_action := [none, none], scores := [0, 0] }

/-- The index of the agent about to move, as computed at the top of both
`do_move` and `get_moves`: with more than one player the turn flips from
`playerJustMoved`, otherwise agent 0 always moves. -/
def GameState.movingIdx (s : GameState) : Nat :=
  if 1 < s.players.length then 1 - s.playerJustMoved else 0

/-- `GameState._collides_with_player`: does `pos` lie on any tracked chain? -/
def collides_with_player (players : List (List Position)) (pos : Position) : Bool :=
  players.any (fun p => decide (pos ∈ p))

/-- `GameState._opposite_action`: negate both components. -/
def opposite_action (a : Vector) : Vector := ⟨-a.xdir, -a.ydir⟩

/-- `Position(head.x + move.xdir, head.y + move.ydir)`. -/
def newHead (head : Position) (m : Vector) : Position :=
  ⟨head.x + m.xdir, head.y + m.ydir⟩

/-- The score list after the mover steps onto `nh`, by the first matching
rule of `do_move`: collision with any tracked chain, then numeral pickup,
then obstacle symbol, otherwise unchanged. -/
def moveScores (s : GameState) (nh : Position) : List Int :=
  let pm := s.movingIdx
  let ch := (s.terrain nh.x nh.y).1
  if collides_with_player s.players nh then s.scores.set pm (-1000)
  else if ch.isDigit then s.scores.set pm (s.scores.getD pm 0 + digitVal ch)
  else if ch ∈ obstacleChars then s.scores.set pm (-1000)
  else s.scores

/-- `GameState.do_move`.  `none` embeds a raised `IndexError` (empty player
list, empty chain, or an out-of-range index into `last_action`/`scores`).
On success the moving agent's last action is recorded, its score is updated
by the collision / numeral / obstacle rule, the new head is pushed and the
old tail popped, and `playerJustMoved` becomes the mover's index. -/
def GameState.do_move (s : GameState) (m : Vector) : Option GameState :=
  let pm := s.movingIdx
  if pm < s.last_action.length then
    match s.players[pm]? with
    | none => none
    | some player =>
      match player.head? with
      | none => none
      | some head =>
        if pm < s.scores.length then
          some { playerJustMoved := pm, terrain := s.terrain,
                 players := s.players.set pm (newHead head m :: player.dropLast),
                 last_action := s.last_action.set pm (some m),
                 scores := moveScores s (newHead head m) }
        else none
  else none

/-- `GameState.get_moves`: all four actions, minus the opposite of the
moving agent's recorded last action when one exists.  `none` embeds a
raised `IndexError` on the `last_action` read. -/
def GameState.get_moves (s : GameState) : Option (List Vector) :=
  match s.last_action[s.movingIdx]? with
  | none => none
  | some (some a) => some (Actions.filter (fun x => x ≠ opposite_action a))
  | some none => some Actions

/-- `GameState.get_result`: the score of `playerjm`; `none` embeds a raised
`IndexError`. -/
def GameState.get_result (s : GameState) (playerjm : Nat) : Option Int :=
  s.scores[playerjm]?

/-- `GameState.clone`: a fresh `GameState` built by `__init__` (hence
`playerJustMoved = 1`) sharing the terrain, with the chains deep-copied and
the `last_action` and `scores` lists copied by slicing.  Deep copies of
immutable values are the values themselves in this embedding. -/
def GameState.clone (s : GameState) : GameState :=
  { playerJustMoved := 1, terrain := s.terrain, players := s.players,
    last_action := s.last_action, scores := s.scores }

/-- A grid snapshot as seen by the scanner (`self.world` with its
`SIZE_X`/`SIZE_Y` bounds): each cell is a (symbol, color) pair. -/
structure World where
  sizeX : Nat
  sizeY : Nat
  cell : Nat → Nat → Char × Int

/-- The scan order of `_find_snake_heads`: `for x in range(SIZE_X): for y in
range(SIZE_Y)`. -/
def World.coords (w : World) : List (Nat × Nat) :=
  ((List.range w.sizeX).map (fun x => (List.range w.sizeY).map (fun y => (x, y)))).flatten

/-- One step of the `_find_snake_heads` scan: a head cell of the robot's
own color overwrites the first component, any other head cell overwrites
the second. -/
def headScanStep (w : World) (myColor : Int)
    (acc : Option Position × Option Position) (xy : Nat × Nat) :
    Option Position × Option Position :=
  let c := w.cell xy.1 xy.2
  if c.1 = CH_HEAD then
    if c.2 = myColor then (some ⟨(xy.1 : Int), (xy.2 : Int)⟩, acc.2)
    else (acc.1, some ⟨(xy.1 : Int), (xy.2 : Int)⟩)
  else acc

/-- `MyRobotSnake._find_snake_heads`: scan the whole grid for head symbols;
return `[deque([player_head]), deque([opponent_head])]` when an opponent
head was seen and `[deque([player_head])]` otherwise.  The controlled
agent's entry is `none` (Python `None`) when its head is absent. -/
def find_snake_heads (w : World) (myColor : Int) : List (List (Option Position)) :=
  let scan := w.coords.foldl (headScanStep w myColor) (none, none)
  match scan.2 with
  | some oh => [[scan.1], [some oh]]
  | none => [[scan.1]]

/-- A node of the search tree (`Node` in src/main.py).  The Python parent
pointer is represented by the recursive structure itself: backpropagation
is the unwinding of `iterate` below. -/
inductive NodeT : Type where
  | mk (move : Option Vector) (wins : Int) (visits : Nat)
      (untriedMoves : List Vector) (playerJustMoved : Nat)
      (childNodes : List NodeT) : NodeT
deriving Repr

/-- The move that led to this node (`None` for the root). -/
def NodeT.move : NodeT → Option Vector
  | .mk m _ _ _ _ _ => m

/-- Accumulated backpropagated result (`Node.wins`). -/
def NodeT.wins : NodeT → Int
  | .mk _ w _ _ _ _ => w

/-- Visit count (`Node.visits`). -/
def NodeT.visits : NodeT → Nat
  | .mk _ _ v _ _ _ => v

/-- Moves not yet expanded from this node (`Node.untriedMoves`). -/
def NodeT.untriedMoves : NodeT → List Vector
  | .mk _ _ _ u _ _ => u

/-- The just-moved agent captured at node creation (`Node.playerJustMoved`). -/
def NodeT.playerJustMoved : NodeT → Nat
  | .mk _ _ _ _ p _ => p

/-- Child nodes in creation order (`Node.childNodes`). -/
def NodeT.childNodes : NodeT → List NodeT
  | .mk _ _ _ _ _ c => c

/-- `Node.update`: one more visit, `result` more wins. -/
def NodeT.update (r : Int) : NodeT → NodeT
  | .mk m w v u p c => .mk m (w + r) (v + 1) u p c

/-- `Node.__init__`: capture the state's legal moves and just-moved agent;
`none` embeds the `IndexError` that `state.get_moves()` may raise. -/
def NodeT.make (mv : Option Vector) (st : GameState) : Option NodeT :=
  match st.get_moves with
  | none => none
  | some ms => some (.mk mv 0 0 ms st.playerJustMoved [])

/-- Stable ascending insertion by visit count: the inserted node goes in
front of the first element with a visit count that is not smaller.  Earlier
list elements therefore stay in front of later ties, exactly as Python's
stable `sorted(key = lambda c: c.visits)`. -/
def insVisits (c : NodeT) : List NodeT → List NodeT
  | [] => [c]
  | d :: ds => if c.visits ≤ d.visits then c :: d :: ds else d :: insVisits c ds

/-- `sorted(childNodes, key = lambda c: c.visits)`: stable ascending sort. -/
def pysorted : List NodeT → List NodeT
  | [] => []
  | c :: cs => insVisits c (pysorted cs)

/-- The UCB1 value `c.wins/c.visits + sqrt(2*log(self.visits)/c.visits)`
computed by `Node.uct_select_child`, over the reals (the Python code uses
IEEE doubles; the claim is stated over the mathematical formula). -/
noncomputable def ucb1Value (parentVisits : Nat) (c : NodeT) : ℝ :=
  (c.wins : ℝ) / (c.visits : ℝ) +
    Real.sqrt (2 * Real.log (parentVisits : ℝ) / (c.visits : ℝ))

/-- The strict-improvement fold of `Node.uct_select_child`: starting from
`max_value = -inf` (embedded as `none`, which any real beats), keep the
first child attaining the running maximum. -/
noncomputable def selectFold (f : NodeT → ℝ) :
    List NodeT → Option (ℝ × NodeT) → Option (ℝ × NodeT)
  | [], acc => acc
  | c :: cs, acc =>
    let v := f c
    match acc with
    | none => selectFold f cs (some (v, c))
    | some (mv, mn) =>
      if mv < v then selectFold f cs (some (v, c))
      else selectFold f cs (some (mv, mn))

/-- `Node.uct_select_child`: the first child strictly maximizing the UCB1
value, `none` when there are no children (Python falls back to the integer
sentinel `0` there, which the callers never use). -/
noncomputable def uct_select_child (n : NodeT) : Option NodeT :=
  (selectFold (ucb1Value n.visits) n.childNodes none).map (fun p => p.2)

/-- Index-tracking variant of the same fold, used to rebuild the tree after
descending into the selected child. -/
noncomputable def selectFoldIdx (f : NodeT → ℝ) :
    List NodeT → Nat → Option (ℝ × Nat) → Option (ℝ × Nat)
  | [], _, acc => acc
  | c :: cs, i, acc =>
    let v := f c
    match acc with
    | none => selectFoldIdx f cs (i + 1) (some (v, i))
    | some (mv, mi) =>
      if mv < v then selectFoldIdx f cs (i + 1) (some (v, i))
      else selectFoldIdx f cs (i + 1) (some (mv, mi))

/-- The position (in `childNodes`) of the child `Node.uct_select_child`
returns. -/
noncomputable def uctSelectIdx (n : NodeT) : Nat :=
  match selectFoldIdx (ucb1Value n.visits) n.childNodes 0 none with
  | none => 0
  | some (_, i) => i

/-- The rollout loop of `UCT`: `maxdepth` uniformly random legal moves
applied to the working state.  `rng k` supplies the random index of the
`k`-th random draw of the search (`random.choice(l)` becomes
`l[rng k % l.length]`).  `none` embeds an uncaught exception
(the `except ValueError` in the source does not catch the `IndexError`
that `get_moves`, `random.choice` on an empty list, or `do_move` raise). -/
def rollout (rng : Nat → Nat) : Nat → GameState → Nat → Option (GameState × Nat)
  | 0, st, k => some (st, k)
  | d + 1, st, k =>
    match st.get_moves with
    | none => none
    | some ms =>
      match ms[rng k % ms.length]? with
      | none => none
      | some m =>
        match st.do_move m with
        | none => none
        | some st' => rollout rng d st' (k + 1)

/-- One iteration of the `UCT` loop body (selection, expansion, rollout,
backpropagation), written as a recursion on the tree: descending the
selection path and unwinding it afterwards replaces the Python walk along
`parentNode` links.  `sel` is the child index chosen when the node is fully
expanded (instantiated with `uctSelectIdx` in `UCT`); `fuel` bounds the
recursion depth (the selection path of a finite tree is finite, and `UCT`
passes more fuel than any path can use).  Returns the updated node, the
final rollout state used for backpropagation, and the rng cursor. -/
def iterate (sel : NodeT → Nat) (rng : Nat → Nat) (maxdepth : Nat) :
    Nat → NodeT → GameState → Nat → Option (NodeT × GameState × Nat)
  | 0, _, _, _ => none
  | fuel + 1, n, st, k =>
    if n.untriedMoves = [] ∧ n.childNodes.isEmpty = false then
      match n.childNodes[sel n]? with
      | none => none
      | some c =>
        match c.move with
        | none => none
        | some mv =>
          match st.do_move mv with
          | none => none
          | some st' =>
            match iterate sel rng maxdepth fuel c st' k with
            | none => none
            | some (c', stF, k') =>
              match stF.get_result n.playerJustMoved with
              | none => none
              | some r =>
                some ((NodeT.mk n.move n.wins n.visits n.untriedMoves
                    n.playerJustMoved (n.childNodes.set (sel n) c')).update r,
                  stF, k')
    else if n.untriedMoves ≠ [] then
      match n.untriedMoves[rng k % n.untriedMoves.length]? with
      | none => none
      | some m =>
        match st.do_move m with
        | none => none
        | some st' =>
          match NodeT.make (some m) st' with
          | none => none
          | some child =>
            match rollout rng maxdepth st' (k + 1) with
            | none => none
            | some (stF, k') =>
              match stF.get_result child.playerJustMoved with
              | none => none
              | some rc =>
                match stF.get_result n.playerJustMoved with
                | none => none
                | some rn =>
                  some ((NodeT.mk n.move n.wins n.visits
                      (n.untriedMoves.erase m) n.playerJustMoved
                      (n.childNodes ++ [child.update rc])).update rn,
                    stF, k')
    else
      match rollout rng maxdepth st k with
      | none => none
      | some (stF, k') =>
        match stF.get_result n.playerJustMoved with
        | none => none
        | some r => some (n.update r, stF, k')

/-- The `for i in range(itermax)` loop of `UCT`: each iteration works on a
clone of the root state. -/
def UCTloop (sel : NodeT → Nat) (rng : Nat → Nat) (rootstate : GameState)
    (maxdepth fuel : Nat) : Nat → NodeT → Nat → Option (NodeT × Nat)
  | 0, root, k => some (root, k)
  | i + 1, root, k =>
    match iterate sel rng maxdepth fuel root rootstate.clone k with
    | none => none
    | some (root', _, k') => UCTloop sel rng rootstate maxdepth fuel i root' k'

/-- `UCT(rootstate, itermax, maxdepth)` with the child selector as a
parameter: build the root node, run `itermax` iterations, and return the
final tree together with `sorted(root_node.childNodes, key = lambda c:
c.visits)[-1].move` (the final root node is returned alongside the chosen
move so that properties of the search tree can be stated). -/
def UCTgen (sel : NodeT → Nat) (rootstate : GameState) (itermax maxdepth : Nat)
    (rng : Nat → Nat) : Option (NodeT × Option Vector) :=
  match NodeT.make none rootstate with
  | none => none
  | some root =>
    match UCTloop sel rng rootstate maxdepth (itermax + 1) itermax root 0 with
    | none => none
    | some (rootF, _) =>
      match (pysorted rootF.childNodes).getLast? with
      | none => none
      | some c => some (rootF, c.move)

/-- `UCT` from src/main.py: `UCTgen` instantiated with the UCB1 child
selector. -/
noncomputable def UCT (rootstate : GameState) (itermax maxdepth : Nat)
    (rng : Nat → Nat) : Option (NodeT × Option Vector) :=
  UCTgen uctSelectIdx rootstate itermax maxdepth rng

/-!
A small object-heap model, used to settle the aliasing behaviour of
`clone`: Python's chains (deques), `last_action` list and `scores` list are
mutable heap objects, so a `GameState` is modelled as a record of
addresses, and `clone`/`do_move` act on an explicit heap.  Addresses are
allocated in increasing order; `n…` counters record the next free address
of each kind.
-/

/-- The mutable objects reachable from game states: one store per object
kind (body chains, last-action lists, score lists). -/
structure Heap where
  deques : Nat → List Position
  ndeques : Nat
  vlists : Nat → List (Option Vector)
  nvlists : Nat
  ilists : Nat → List Int
  nilists : Nat

/-- A `GameState` whose mutable parts are heap addresses. -/
structure GameStateR where
  playerJustMoved : Nat
  terrain : Int → Int → Char × Int
  players : List Nat
  last_action : Nat
  scores : Nat

/-- All addresses of a state are allocated, and the chain addresses are
pairwise distinct (Python's scanner and `clone` both produce distinct
deque objects). -/
def WFR (h : Heap) (r : GameStateR) : Prop :=
  (∀ a ∈ r.players, a < h.ndeques) ∧ r.last_action < h.nvlists ∧
    r.scores < h.nilists ∧ r.players.Nodup

/-- Dereference every address of a state, giving the plain value-level
`GameState`. -/
def Heap.readState (h : Heap) (r : GameStateR) : GameState :=
  { playerJustMoved := r.playerJustMoved, terrain := r.terrain,
    players := r.players.map h.deques,
    last_action := h.vlists r.last_action, scores := h.ilists r.scores }

/-- Store a list of chain values at a list of addresses. -/
def writeDeques (f : Nat → List Position) :
    List Nat → List (List Position) → Nat → List Position
  | [], _ => f
  | _ :: _, [] => f
  | a :: as, d :: ds => writeDeques (Function.update f a d) as ds

/-- Write the (mutated) value-level state back through the addresses of
`r`; only objects reachable from `r` are touched. -/
def Heap.writeBack (h : Heap) (r : GameStateR) (s : GameState) : Heap :=
  { h with deques := writeDeques h.deques r.players s.players,
           vlists := Function.update h.vlists r.last_action s.last_action,
           ilists := Function.update h.ilists r.scores s.scores }

/-- `GameState.do_move` on the heap: read the state, run the value-level
move, write the result back through the same addresses.  Only the mover's
deque, the `last_action` list and the `scores` list change in Python, all
of which are inside the written footprint. -/
def do_moveR (h : Heap) (r : GameStateR) (m : Vector) : Option (Heap × GameStateR) :=
  match (h.readState r).do_move m with
  | none => none
  | some s' =>
    some (h.writeBack r s',
      { r with playerJustMoved := s'.playerJustMoved })

/-- Allocate fresh deque objects holding the given chain values
(`copy.deepcopy(self.players)`), returning the new heap and the fresh
addresses in order. -/
def allocDeques : Heap → List (List Position) → Heap × List Nat
  | h, [] => (h, [])
  | h, d :: ds =>
    let h1 : Heap := { h with deques := Function.update h.deques h.ndeques d,
                              ndeques := h.ndeques + 1 }
    ((allocDeques h1 ds).1, h.ndeques :: (allocDeques h1 ds).2)

/-- `GameState.clone` on the heap: fresh deques holding deep copies of the
chains, a fresh `last_action` list (`self.last_action[:]`), a fresh
`scores` list (`self.scores[:]`), the same shared terrain, and
`playerJustMoved` reset to the constructor default. -/
def cloneR (h : Heap) (r : GameStateR) : Heap × GameStateR :=
  let h1 : Heap := (allocDeques h (r.players.map h.deques)).1
  let prefs : List Nat := (allocDeques h (r.players.map h.deques)).2
  let h2 : Heap := { h1 with
    vlists := Function.update h1.vlists h1.nvlists (h.vlists r.last_action),
    nvlists := h1.nvlists + 1 }
  let h3 : Heap := { h2 with
    ilists := Function.update h2.ilists h2.nilists (h.ilists r.scores),
    nilists := h2.nilists + 1 }
  (h3, { playerJustMoved := 1, terrain := r.terrain, players := prefs,
         last_action := h1.nvlists, scores := h2.nilists })

/-- Apply a sequence of moves to a heap state, stopping (like a raised
exception would) at the first failure; the result is the final heap. -/
def runMovesR (h : Heap) (r : GameStateR) : List Vector → Heap
  | [] => h
  | m :: ms =>
    match do_moveR h r m with
    | none => h
    | some (h', r') => runMovesR h' r' ms

/-!  Helper lemmas. -/

/-- The hypotheses under which Python's `do_move` runs without raising: the
moving agent exists with a non-empty chain, and the bookkeeping lists are
long enough for the mover's index. -/
def MoverReady (s : GameState) (head : Position) (tail : List Position) : Prop :=
  s.players[s.movingIdx]? = some (head :: tail) ∧
    s.movingIdx < s.last_action.length ∧ s.movingIdx < s.scores.length

instance (s : GameState) (head : Position) (tail : List Position) :
    Decidable (MoverReady s head tail) := by
  unfold MoverReady; infer_instance

theorem do_move_eq_some (s : GameState) (m : Vector) (head : Position)
    (tail : List Position) (h : MoverReady s head tail) :
    s.do_move m = some ⟨s.movingIdx, s.terrain,
      s.players.set s.movingIdx (newHead head m :: (head :: tail).dropLast),
      s.last_action.set s.movingIdx (some m),
      moveScores s (newHead head m)⟩ := by
  obtain ⟨hp, hla, hsc⟩ := h
  simp only [GameState.do_move]
  rw [hp]
  simp [hla, hsc]

theorem movingIdx_lt_players (s : GameState) (head : Position)
    (tail : List Position) (h : MoverReady s head tail) :
    s.movingIdx < s.players.length := by
  obtain ⟨hp, -, -⟩ := h
  exact (List.getElem?_eq_some.mp hp).1

/-- C1: for every state and move, `do_move` computes the mover's new head
as head + move and updates the mover's score by the first matching rule:
collision with any tracked chain (including the mover's own current body)
sets it to -1000; otherwise a numeral destination adds its digit value;
otherwise an obstacle symbol sets it to -1000; otherwise it is unchanged.
Scores of other agents are untouched. -/
theorem C1_do_move_score_rule (s : GameState) (m : Vector) (head : Position)
    (tail : List Position) (h : MoverReady s head tail) :
    ∃ s', s.do_move m = some s' ∧
      s'.players[s.movingIdx]? =
        some (newHead head m :: (head :: tail).dropLast) ∧
      (collides_with_player s.players (newHead head m) = true →
        s'.scores[s.movingIdx]? = some (-1000)) ∧
      (collides_with_player s.players (newHead head m) = false →
        (s.terrain (newHead head m).x (newHead head m).y).1.isDigit = true →
        s'.scores[s.movingIdx]? = some (s.scores.getD s.movingIdx 0 +
          digitVal (s.terrain (newHead head m).x (newHead head m).y).1)) ∧
      (collides_with_player s.players (newHead head m) = false →
        (s.terrain (newHead head m).x (newHead head m).y).1.isDigit = false →
        (s.terrain (newHead head m).x (newHead head m).y).1 ∈ obstacleChars →
        s'.scores[s.movingIdx]? = some (-1000)) ∧
      (collides_with_player s.players (newHead head m) = false →
        (s.terrain (newHead head m).x (newHead head m).y).1.isDigit = false →
        (s.terrain (newHead head m).x (newHead head m).y).1 ∉ obstacleChars →
        s'.scores[s.movingIdx]? = s.scores[s.movingIdx]?) ∧
      (∀ j, j ≠ s.movingIdx → s'.scores[j]? = s.scores[j]?) := by
  obtain ⟨hp, hla, hsc⟩ := h
  have hpl := movingIdx_lt_players s head tail ⟨hp, hla, hsc⟩
  refine ⟨_, do_move_eq_some s m head tail ⟨hp, hla, hsc⟩, ?_, ?_, ?_, ?_, ?_, ?_⟩
  · exact List.getElem?_set_eq_of_lt _ hpl
  · intro hcol
    simp [moveScores, hcol, List.getElem?_set_eq_of_lt, hsc]
  · intro hcol hdig
    simp [moveScores, hcol, hdig, List.getElem?_set_eq_of_lt, hsc]
  · intro hcol hdig hobs
    simp [moveScores, hcol, hdig, hobs, List.getElem?_set_eq_of_lt, hsc]
  · intro hcol hdig hobs
    simp [moveScores, hcol, hdig, hobs]
  · intro j hj
    simp only [moveScores]
    split
    · exact List.getElem?_set_ne (Ne.symm hj)
    · split
      · exact List.getElem?_set_ne (Ne.symm hj)
      · split
        · exact List.getElem?_set_ne (Ne.symm hj)
        · rfl

/-- A blank two-cell-free terrain used by concrete instances. -/
def terrain0 : Int → Int → Char × Int := fun _ _ => (' ', 0)

/-- A two-agent sample state with single-cell chains. -/
def sample2 : GameState := GameState.init terrain0 [[⟨1, 1⟩], [⟨5, 5⟩]]

/-- Concrete instance discharging C1's hypotheses. -/
theorem C1_witness :
    MoverReady sample2 ⟨1, 1⟩ [] ∧
    (∃ s', sample2.do_move RIGHT = some s' ∧
      s'.players[sample2.movingIdx]? =
        some (newHead ⟨1, 1⟩ RIGHT :: ((⟨1, 1⟩ : Position) :: []).dropLast) ∧
      (collides_with_player sample2.players (newHead ⟨1, 1⟩ RIGHT) = true →
        s'.scores[sample2.movingIdx]? = some (-1000)) ∧
      (collides_with_player sample2.players (newHead ⟨1, 1⟩ RIGHT) = false →
        (sample2.terrain (newHead ⟨1, 1⟩ RIGHT).x
          (newHead ⟨1, 1⟩ RIGHT).y).1.isDigit = true →
        s'.scores[sample2.movingIdx]? = some (sample2.scores.getD sample2.movingIdx 0 +
          digitVal (sample2.terrain (newHead ⟨1, 1⟩ RIGHT).x
            (newHead ⟨1, 1⟩ RIGHT).y).1)) ∧
      (collides_with_player sample2.players (newHead ⟨1, 1⟩ RIGHT) = false →
        (sample2.terrain (newHead ⟨1, 1⟩ RIGHT).x
          (newHead ⟨1, 1⟩ RIGHT).y).1.isDigit = false →
        (sample2.terrain (newHead ⟨1, 1⟩ RIGHT).x
          (newHead ⟨1, 1⟩ RIGHT).y).1 ∈ obstacleChars →
        s'.scores[sample2.movingIdx]? = some (-1000)) ∧
      (collides_with_player sample2.players (newHead ⟨1, 1⟩ RIGHT) = false →
        (sample2.terrain (newHead ⟨1, 1⟩ RIGHT).x
          (newHead ⟨1, 1⟩ RIGHT).y).1.isDigit = false →
        (sample2.terrain (newHead ⟨1, 1⟩ RIGHT).x
          (newHead ⟨1, 1⟩ RIGHT).y).1 ∉ obstacleChars →
        s'.scores[sample2.movingIdx]? = sample2.scores[sample2.movingIdx]?) ∧
      (∀ j, j ≠ sample2.movingIdx → s'.scores[j]? = sample2.scores[j]?)) :=
  ⟨by decide, C1_do_move_score_rule sample2 RIGHT ⟨1, 1⟩ [] (by decide)⟩

/-- C6: `do_move` keeps every chain's length unchanged — the mover gets the
new head prepended and its old tail dropped (unconditionally, collisions
included, since the score branch never guards the push/pop), and the chains
of the other agents are not modified at all. -/
theorem C6_do_move_chain_lengths (s : GameState) (m : Vector) (head : Position)
    (tail : List Position) (h : MoverReady s head tail) :
    ∃ s', s.do_move m = some s' ∧
      s'.players[s.movingIdx]? =
        some (newHead head m :: (head :: tail).dropLast) ∧
      (∀ j, j ≠ s.movingIdx → s'.players[j]? = s.players[j]?) ∧
      (∀ j : Nat, (s'.players[j]?).map List.length = (s.players[j]?).map List.length) := by
  have hpl := movingIdx_lt_players s head tail h
  obtain ⟨hp, hla, hsc⟩ := h
  refine ⟨_, do_move_eq_some s m head tail ⟨hp, hla, hsc⟩, ?_, ?_, ?_⟩
  · exact List.getElem?_set_eq_of_lt _ hpl
  · intro j hj
    exact List.getElem?_set_ne (Ne.symm hj)
  · intro j
    by_cases hj : j = s.movingIdx
    · subst hj
      rw [List.getElem?_set_eq_of_lt _ hpl, hp]
      simp
    · rw [List.getElem?_set_ne (Ne.symm hj)]

/-- Concrete instance discharging C6's hypotheses: the mover has a chain of
length three, which stays length three. -/
theorem C6_witness :
    MoverReady (GameState.init terrain0 [[⟨1, 1⟩, ⟨1, 2⟩, ⟨1, 3⟩], [⟨5, 5⟩]])
      ⟨1, 1⟩ [⟨1, 2⟩, ⟨1, 3⟩] ∧
    (∃ s', (GameState.init terrain0
        [[⟨1, 1⟩, ⟨1, 2⟩, ⟨1, 3⟩], [⟨5, 5⟩]]).do_move RIGHT = some s' ∧
      s'.players[(GameState.init terrain0
          [[⟨1, 1⟩, ⟨1, 2⟩, ⟨1, 3⟩], [⟨5, 5⟩]]).movingIdx]? =
        some (newHead ⟨1, 1⟩ RIGHT ::
          ((⟨1, 1⟩ : Position) :: [⟨1, 2⟩, ⟨1, 3⟩]).dropLast) ∧
      (∀ j, j ≠ (GameState.init terrain0
          [[⟨1, 1⟩, ⟨1, 2⟩, ⟨1, 3⟩], [⟨5, 5⟩]]).movingIdx →
        s'.players[j]? = (GameState.init terrain0
          [[⟨1, 1⟩, ⟨1, 2⟩, ⟨1, 3⟩], [⟨5, 5⟩]]).players[j]?) ∧
      (∀ j : Nat, (s'.players[j]?).map List.length =
        ((GameState.init terrain0
          [[⟨1, 1⟩, ⟨1, 2⟩, ⟨1, 3⟩], [⟨5, 5⟩]]).players[j]?).map List.length)) :=
  ⟨by decide, C6_do_move_chain_lengths _ RIGHT ⟨1, 1⟩ [⟨1, 2⟩, ⟨1, 3⟩] (by decide)⟩

/-- The states the program can actually put `GameState` into: an initial
state built by the constructor, or the successful result of a legal move
applied to a reachable state (every move the search ever applies is drawn
from a `get_moves` result, hence from `Actions`). -/
inductive Reachable : GameState → Prop where
  | init (t : Int → Int → Char × Int) (ps : List (List Position)) :
      Reachable (GameState.init t ps)
  | step {s s' : GameState} {m : Vector} : Reachable s → m ∈ Actions →
      s.do_move m = some s' → Reachable s'

/-- The bookkeeping invariant maintained by `__init__` and `do_move`. -/
def StateWF (s : GameState) : Prop :=
  s.playerJustMoved ≤ 1 ∧ s.last_action.length = 2 ∧ s.scores.length = 2 ∧
    ∀ i : Nat, ∀ v : Vector, s.last_action[i]? = some (some v) → v ∈ Actions

theorem movingIdx_le_one (s : GameState) : s.movingIdx ≤ 1 := by
  simp only [GameState.movingIdx]
  split <;> omega

theorem length_moveScores (s : GameState) (nh : Position) :
    (moveScores s nh).length = s.scores.length := by
  simp only [moveScores]
  split
  · simp
  · split
    · simp
    · split <;> simp

theorem do_move_some_inv {s s' : GameState} {m : Vector}
    (h : s.do_move m = some s') :
    ∃ head tail, MoverReady s head tail ∧
      s' = ⟨s.movingIdx, s.terrain,
        s.players.set s.movingIdx (newHead head m :: (head :: tail).dropLast),
        s.last_action.set s.movingIdx (some m),
        moveScores s (newHead head m)⟩ := by
  by_cases hla : s.movingIdx < s.last_action.length
  · rcases hp : s.players[s.movingIdx]? with - | player
    · simp [GameState.do_move, hla, hp] at h
    · rcases player with - | ⟨head, tail⟩
      · simp [GameState.do_move, hla, hp] at h
      · by_cases hsc : s.movingIdx < s.scores.length
        · refine ⟨head, tail, ⟨hp, hla, hsc⟩, ?_⟩
          rw [do_move_eq_some s m head tail ⟨hp, hla, hsc⟩] at h
          exact (Option.some.inj h).symm
        · simp [GameState.do_move, hla, hp, hsc] at h
  · simp [GameState.do_move, hla] at h

theorem do_move_wf {s s' : GameState} {m : Vector} (hmem : m ∈ Actions)
    (hdo : s.do_move m = some s') (hwf : StateWF s) : StateWF s' := by
  obtain ⟨head, tail, hmr, rfl⟩ := do_move_some_inv hdo
  obtain ⟨h1, h2, h3, h4⟩ := hwf
  refine ⟨movingIdx_le_one _, by simpa using h2,
    by simpa [length_moveScores] using h3, ?_⟩
  intro i v hv
  simp only at hv
  by_cases hi : s.movingIdx = i
  · subst hi
    have hlen : s.movingIdx < s.last_action.length := by
      have := movingIdx_le_one s; omega
    rw [List.getElem?_set_eq_of_lt _ hlen] at hv
    obtain rfl : m = v := by simpa using hv
    exact hmem
  · rw [List.getElem?_set_ne hi] at hv
    exact h4 i v hv

theorem reachable_wf {s : GameState} (h : Reachable s) : StateWF s := by
  induction h with
  | init t ps =>
    refine ⟨le_refl 1, rfl, rfl, ?_⟩
    intro i v hv
    rcases i with - | i
    · simp [GameState.init] at hv
    · rcases i with - | i <;> simp [GameState.init] at hv
  | step hr hmem hdo ih => exact do_move_wf hmem hdo ih

/-- C3: on every reachable state `get_moves` returns without raising: all
four directions when the moving agent has no recorded action, and, when an
action is recorded, exactly the three actions other than its opposite; in
particular the result is never empty. -/
theorem C3_get_moves_total (s : GameState) (h : Reachable s) :
    ∃ ms, s.get_moves = some ms ∧ ms ≠ [] ∧
      (s.last_action[s.movingIdx]? = some none → ms = Actions) ∧
      (∀ v : Vector, s.last_action[s.movingIdx]? = some (some v) →
        ms = Actions.filter (fun x => x ≠ opposite_action v) ∧
        opposite_action v ∉ ms ∧
        (∀ a ∈ ms, a ∈ Actions ∧ a ≠ opposite_action v) ∧
        (∀ a ∈ Actions, a ≠ opposite_action v → a ∈ ms) ∧
        ms.length = 3) := by
  obtain ⟨h1, h2, h3, h4⟩ := reachable_wf h
  have hlt : s.movingIdx < s.last_action.length := by
    have := movingIdx_le_one s; omega
  rcases hv : s.last_action[s.movingIdx]? with - | ov
  · rw [List.getElem?_eq_none_iff] at hv; omega
  · rcases ov with - | v
    · refine ⟨Actions, by simp [GameState.get_moves, hv], by decide,
        fun _ => rfl, ?_⟩
      intro v hv2
      simp at hv2
    · have hva : v ∈ Actions := h4 _ _ hv
      refine ⟨Actions.filter (fun x => x ≠ opposite_action v),
        by simp [GameState.get_moves, hv], ?_, ?_, ?_⟩
      · simp only [Actions, List.mem_cons, List.not_mem_nil, or_false] at hva
        rcases hva with rfl | rfl | rfl | rfl <;> decide
      · intro habs
        simp at habs
      · intro v' hv'
        obtain rfl : v = v' := by simpa using hv'
        simp only [Actions, List.mem_cons, List.not_mem_nil, or_false] at hva
        rcases hva with rfl | rfl | rfl | rfl <;>
          exact ⟨rfl, by decide, by decide, by decide, by decide⟩

/-- Concrete instance discharging C3's hypothesis: the sample two-agent
initial state is reachable. -/
theorem C3_witness :
    Reachable sample2 ∧
    (∃ ms, sample2.get_moves = some ms ∧ ms ≠ [] ∧
      (sample2.last_action[sample2.movingIdx]? = some none → ms = Actions) ∧
      (∀ v : Vector, sample2.last_action[sample2.movingIdx]? = some (some v) →
        ms = Actions.filter (fun x => x ≠ opposite_action v) ∧
        opposite_action v ∉ ms ∧
        (∀ a ∈ ms, a ∈ Actions ∧ a ≠ opposite_action v) ∧
        (∀ a ∈ Actions, a ≠ opposite_action v → a ∈ ms) ∧
        ms.length = 3)) :=
  ⟨Reachable.init terrain0 [[⟨1, 1⟩], [⟨5, 5⟩]],
    C3_get_moves_total sample2 (Reachable.init terrain0 [[⟨1, 1⟩], [⟨5, 5⟩]])⟩

/-- C7 (code bug): after one move from a fresh two-agent state the
just-moved index is 0, but `clone` rebuilds the state through the
constructor and so resets the index to 1 while copying every other
component (the sibling `OXOState.Clone` in the same file does copy
`playerJustMoved`); the claim that the clone agrees with the original in
every state component fails on the just-moved index. -/
theorem C7_clone_resets_playerJustMoved :
    ∃ s', sample2.do_move RIGHT = some s' ∧
      s'.playerJustMoved = 0 ∧ s'.clone.playerJustMoved = 1 ∧
      s'.clone.playerJustMoved ≠ s'.playerJustMoved ∧
      s'.clone.terrain = s'.terrain ∧ s'.clone.players = s'.players ∧
      s'.clone.last_action = s'.last_action ∧ s'.clone.scores = s'.scores :=
  ⟨_, rfl, rfl, rfl, by decide, rfl, rfl, rfl, rfl⟩

/-- C9 (counterexample): on a snapshot with no head symbol at all the
scanner still reports the controlled agent — as a chain containing the
null head `None` — instead of omitting it, and `do_move` on a zero-agent
state fails (an uncaught `IndexError` on `self.players[0]`) rather than
tolerating it. -/
theorem C9_counterexample :
    find_snake_heads ⟨1, 1, fun _ _ => (' ', 0)⟩ 0 = [[none]] ∧
    (GameState.init terrain0 []).do_move UP = none :=
  ⟨rfl, rfl⟩

theorem mem_coords {w : World} {xy : Nat × Nat} (h : xy ∈ w.coords) :
    xy.1 < w.sizeX ∧ xy.2 < w.sizeY := by
  simp only [World.coords, List.mem_flatten] at h
  obtain ⟨l, hl, hxy⟩ := h
  simp only [List.mem_map] at hl
  obtain ⟨x, hx, rfl⟩ := hl
  simp only [List.mem_map] at hxy
  obtain ⟨y, hy, rfl⟩ := hxy
  exact ⟨List.mem_range.mp hx, List.mem_range.mp hy⟩

theorem scan_snd_none (w : World) (mc : Int) :
    ∀ (l : List (Nat × Nat)) (acc : Option Position × Option Position),
      (∀ xy ∈ l, ¬((w.cell xy.1 xy.2).1 = CH_HEAD ∧ (w.cell xy.1 xy.2).2 ≠ mc)) →
      acc.2 = none → (l.foldl (headScanStep w mc) acc).2 = none
  | [], _, _, h2 => h2
  | xy :: rest, acc, hall, h2 => by
    rw [List.foldl_cons]
    apply scan_snd_none w mc rest
    · intro z hz
      exact hall z (List.mem_cons_of_mem _ hz)
    · simp only [headScanStep]
      by_cases hch : (w.cell xy.1 xy.2).1 = CH_HEAD
      · have hmc : (w.cell xy.1 xy.2).2 = mc := by
          have := hall xy (List.mem_cons_self _ _)
          push_neg at this
          exact this hch
        simp [hch, hmc, h2]
      · simp [hch, h2]

/-- C9 (amended): only an absent opponent head leads to omission — the
scanner then returns a one-agent list holding just the controlled agent —
and the one-agent state is tolerated downstream: `do_move` succeeds on any
one-agent state with a non-empty chain, `get_moves` succeeds even with no
agents at all, and a whole search on a one-agent state completes. -/
theorem C9_absent_opponent_omitted (w : World) (mc : Int)
    (hno : ∀ x y : Nat, x < w.sizeX → y < w.sizeY →
      ¬((w.cell x y).1 = CH_HEAD ∧ (w.cell x y).2 ≠ mc)) :
    (find_snake_heads w mc).length = 1 ∧
    (∀ (t : Int → Int → Char × Int) (pos : Position) (chain : List Position)
      (m : Vector), ((GameState.init t [pos :: chain]).do_move m).isSome = true) ∧
    (∀ t : Int → Int → Char × Int, (GameState.init t []).get_moves = some Actions) ∧
    (UCT (GameState.init terrain0 [[⟨1, 1⟩]]) 3 2 (fun _ => 0)).isSome = true := by
  refine ⟨?_, ?_, fun t => rfl, rfl⟩
  · have hsnd : (w.coords.foldl (headScanStep w mc) (none, none)).2 = none := by
      apply scan_snd_none
      · intro xy hxy
        obtain ⟨hx, hy⟩ := mem_coords hxy
        exact hno xy.1 xy.2 hx hy
      · rfl
    simp only [find_snake_heads]
    rw [hsnd]
    rfl
  · intro t pos chain m
    rw [do_move_eq_some (GameState.init t [pos :: chain]) m pos chain
      ⟨rfl, by simp [GameState.init, GameState.movingIdx],
        by simp [GameState.init, GameState.movingIdx]⟩]
    rfl

/-- Concrete instance discharging the hypothesis of the amended C9
statement: a 1-by-1 world with a blank cell has no opponent head. -/
theorem C9_witness :
    (∀ x y : Nat, x < (1 : Nat) → y < (1 : Nat) →
      ¬(((World.mk 1 1 (fun _ _ => (' ', 0))).cell x y).1 = CH_HEAD ∧
        ((World.mk 1 1 (fun _ _ => (' ', 0))).cell x y).2 ≠ (0 : Int))) ∧
    (find_snake_heads ⟨1, 1, fun _ _ => (' ', 0)⟩ 0).length = 1 ∧
    (∀ (t : Int → Int → Char × Int) (pos : Position) (chain : List Position)
      (m : Vector), ((GameState.init t [pos :: chain]).do_move m).isSome = true) ∧
    (∀ t : Int → Int → Char × Int, (GameState.init t []).get_moves = some Actions) ∧
    (UCT (GameState.init terrain0 [[⟨1, 1⟩]]) 3 2 (fun _ => 0)).isSome = true :=
  ⟨fun _ _ _ _ h => h.2 rfl,
    C9_absent_opponent_omitted ⟨1, 1, fun _ _ => (' ', 0)⟩ 0
      (fun _ _ _ _ h => h.2 rfl)⟩

theorem writeDeques_not_mem :
    ∀ (refs : List Nat) (ds : List (List Position)) (f : Nat → List Position)
      (a : Nat), a ∉ refs → writeDeques f refs ds a = f a
  | [], _, _, _, _ => rfl
  | _ :: _, [], _, _, _ => rfl
  | p :: ps, d :: ds, f, a, h => by
    show writeDeques (Function.update f p d) ps ds a = f a
    rw [writeDeques_not_mem ps ds (Function.update f p d) a
      (fun hm => h (List.mem_cons_of_mem _ hm))]
    exact Function.update_noteq (fun he => h (by rw [he]; exact List.mem_cons_self p ps)) _ _

theorem do_moveR_frame {h : Heap} {r : GameStateR} {m : Vector} {h' : Heap}
    {r' : GameStateR} (hd : do_moveR h r m = some (h', r')) :
    r'.players = r.players ∧ r'.last_action = r.last_action ∧
    r'.scores = r.scores ∧
    (∀ a : Nat, a ∉ r.players → h'.deques a = h.deques a) ∧
    (∀ a : Nat, a ≠ r.scores → h'.ilists a = h.ilists a) := by
  rcases hdo : (h.readState r).do_move m with - | s'
  · rw [do_moveR, hdo] at hd
    simp at hd
  · rw [do_moveR, hdo] at hd
    obtain ⟨heq, req⟩ := Prod.mk.injEq .. ▸ (Option.some.inj hd)
    subst heq
    subst req
    refine ⟨rfl, rfl, rfl, ?_, ?_⟩
    · intro a ha
      exact writeDeques_not_mem r.players s'.players h.deques a ha
    · intro a ha
      exact Function.update_noteq ha _ _

theorem runMovesR_frame (Nd Ni : Nat) :
    ∀ (ms : List Vector) (h : Heap) (r : GameStateR),
      (∀ p ∈ r.players, Nd ≤ p) → Ni ≤ r.scores →
      (∀ a : Nat, a < Nd → (runMovesR h r ms).deques a = h.deques a) ∧
      (∀ a : Nat, a < Ni → (runMovesR h r ms).ilists a = h.ilists a)
  | [], _, _, _, _ => ⟨fun _ _ => rfl, fun _ _ => rfl⟩
  | m :: ms, h, r, hp, hs => by
    rcases hd : do_moveR h r m with - | ⟨h', r'⟩
    · rw [runMovesR, hd]
      exact ⟨fun _ _ => rfl, fun _ _ => rfl⟩
    · rw [runMovesR, hd]
      obtain ⟨e1, -, e3, f1, f2⟩ := do_moveR_frame hd
      have ih := runMovesR_frame Nd Ni ms h' r'
        (by rw [e1]; exact hp) (by rw [e3]; exact hs)
      refine ⟨?_, ?_⟩
      · intro a ha
        rw [ih.1 a ha]
        exact f1 a (fun hmem => absurd (hp a hmem) (by omega))
      · intro a ha
        rw [ih.2 a ha]
        exact f2 a (by omega)

theorem allocDeques_spec :
    ∀ (ds : List (List Position)) (h : Heap),
      h.ndeques ≤ (allocDeques h ds).1.ndeques ∧
      (allocDeques h ds).1.nvlists = h.nvlists ∧
      (allocDeques h ds).1.nilists = h.nilists ∧
      (allocDeques h ds).1.vlists = h.vlists ∧
      (allocDeques h ds).1.ilists = h.ilists ∧
      (∀ a : Nat, a < h.ndeques → (allocDeques h ds).1.deques a = h.deques a) ∧
      (∀ p ∈ (allocDeques h ds).2, h.ndeques ≤ p)
  | [], h => ⟨le_refl _, rfl, rfl, rfl, rfl, fun _ _ => rfl, by simp [allocDeques]⟩
  | d :: ds, h => by
    have ih := allocDeques_spec ds
      { h with deques := Function.update h.deques h.ndeques d,
               ndeques := h.ndeques + 1 }
    obtain ⟨i1, i2, i3, i4, i5, i6, i7⟩ := ih
    dsimp only at i1 i2 i3 i4 i5 i6 i7
    simp only [allocDeques]
    refine ⟨by omega, i2, i3, i4, i5, ?_, ?_⟩
    · intro a ha
      rw [i6 a (by omega)]
      exact Function.update_noteq (by omega) _ _
    · intro p hp
      rcases List.mem_cons.mp hp with rfl | hp
      · exact le_refl _
      · have := i7 p hp
        omega

/-- C8: cloning a well-formed heap state and then running any sequence of
moves on the clone leaves every chain and the score list of the original
untouched: `clone`'s deep-copied chains and sliced score list occupy fresh
addresses, and `do_move` writes only through the addresses of the state it
is given. -/
theorem C8_clone_unshared (h : Heap) (r : GameStateR) (ms : List Vector)
    (hwf : WFR h r) :
    (∀ a ∈ r.players,
      (runMovesR (cloneR h r).1 (cloneR h r).2 ms).deques a = h.deques a) ∧
    (runMovesR (cloneR h r).1 (cloneR h r).2 ms).ilists r.scores =
      h.ilists r.scores := by
  obtain ⟨hpl, hla, hsc, hnd⟩ := hwf
  obtain ⟨a1, a2, a3, a4, a5, a6, a7⟩ :=
    allocDeques_spec (r.players.map h.deques) h
  have hcp : (cloneR h r).2.players = (allocDeques h (r.players.map h.deques)).2 := rfl
  have hcs : (cloneR h r).2.scores = h.nilists := by
    show (allocDeques h (r.players.map h.deques)).1.nilists = h.nilists
    exact a3
  have hdlow : ∀ a : Nat, a < h.ndeques →
      (cloneR h r).1.deques a = h.deques a := by
    intro a ha
    show (allocDeques h (r.players.map h.deques)).1.deques a = h.deques a
    exact a6 a ha
  have hilow : ∀ a : Nat, a < h.nilists →
      (cloneR h r).1.ilists a = h.ilists a := by
    intro a ha
    show Function.update (allocDeques h (r.players.map h.deques)).1.ilists
        (allocDeques h (r.players.map h.deques)).1.nilists
        (h.ilists r.scores) a =
      h.ilists a
    rw [Function.update_noteq (by omega : a ≠ _) _ _]
    rw [a5]
  have hframe := runMovesR_frame h.ndeques h.nilists ms (cloneR h r).1
    (cloneR h r).2
    (by rw [hcp]; exact a7)
    (by rw [hcs])
  refine ⟨?_, ?_⟩
  · intro a ha
    rw [hframe.1 a (hpl a ha)]
    exact hdlow a (hpl a ha)
  · rw [hframe.2 r.scores hsc]
    exact hilow r.scores hsc

/-- A one-chain concrete heap, with one deque, one vector list and one
integer list allocated. -/
def heap0 : Heap :=
  ⟨fun _ => [⟨3, 3⟩], 1, fun _ => [none, none], 1, fun _ => [0, 0], 1⟩

/-- A concrete heap state whose addresses all point into `heap0`. -/
def stateR0 : GameStateR := ⟨1, terrain0, [0], 0, 0⟩

/-- Concrete instance discharging C8's hypothesis. -/
theorem C8_witness :
    WFR heap0 stateR0 ∧
    ((∀ a ∈ stateR0.players,
      (runMovesR (cloneR heap0 stateR0).1 (cloneR heap0 stateR0).2
        [UP, UP]).deques a = heap0.deques a) ∧
    (runMovesR (cloneR heap0 stateR0).1 (cloneR heap0 stateR0).2
        [UP, UP]).ilists stateR0.scores = heap0.ilists stateR0.scores) :=
  ⟨⟨by decide, by decide, by decide, by decide⟩,
    C8_clone_unshared heap0 stateR0 [UP, UP]
      ⟨by decide, by decide, by decide, by decide⟩⟩

@[simp]
theorem visits_mk (m : Option Vector) (w : Int) (v : Nat) (u : List Vector)
    (p : Nat) (c : List NodeT) : (NodeT.mk m w v u p c).visits = v := rfl

@[simp]
theorem childNodes_mk (m : Option Vector) (w : Int) (v : Nat) (u : List Vector)
    (p : Nat) (c : List NodeT) : (NodeT.mk m w v u p c).childNodes = c := rfl

@[simp]
theorem move_mk (m : Option Vector) (w : Int) (v : Nat) (u : List Vector)
    (p : Nat) (c : List NodeT) : (NodeT.mk m w v u p c).move = m := rfl

@[simp]
theorem untriedMoves_mk (m : Option Vector) (w : Int) (v : Nat)
    (u : List Vector) (p : Nat) (c : List NodeT) :
    (NodeT.mk m w v u p c).untriedMoves = u := rfl

@[simp]
theorem visits_update (r : Int) (n : NodeT) :
    (NodeT.update r n).visits = n.visits + 1 := by
  cases n
  rfl

@[simp]
theorem childNodes_update (r : Int) (n : NodeT) :
    (NodeT.update r n).childNodes = n.childNodes := by
  cases n
  rfl

theorem selectFold_spec (f : NodeT → ℝ) :
    ∀ (l : List NodeT) (v : ℝ) (b : NodeT),
      ∃ res, selectFold f l (some (v, b)) = some res ∧
        ((res = (v, b) ∧ ∀ d ∈ l, f d ≤ v) ∨
         (∃ l₁ c l₂, l = l₁ ++ c :: l₂ ∧ res = (f c, c) ∧ v < f c ∧
           (∀ d ∈ l₁, f d < f c) ∧ (∀ d ∈ l₂, f d ≤ f c)))
  | [], v, b => ⟨(v, b), rfl, Or.inl ⟨rfl, by simp⟩⟩
  | a :: l', v, b => by
    by_cases hva : v < f a
    · obtain ⟨res, hres, hcase⟩ := selectFold_spec f l' (f a) a
      refine ⟨res, ?_, ?_⟩
      · rw [selectFold]
        simp only [hva, if_true]
        exact hres
      · rcases hcase with ⟨rfl, hall⟩ | ⟨l₁, c, l₂, rfl, hres2, hlt, h1, h2⟩
        · exact Or.inr ⟨[], a, l', rfl, rfl, hva, by simp, hall⟩
        · exact Or.inr ⟨a :: l₁, c, l₂, rfl, hres2, lt_trans hva hlt, by
            intro d hd
            rcases List.mem_cons.mp hd with rfl | hd
            · exact hlt
            · exact h1 d hd, h2⟩
    · obtain ⟨res, hres, hcase⟩ := selectFold_spec f l' v b
      refine ⟨res, ?_, ?_⟩
      · rw [selectFold]
        simp only [hva, if_false]
        exact hres
      · rcases hcase with ⟨rfl, hall⟩ | ⟨l₁, c, l₂, rfl, hres2, hlt, h1, h2⟩
        · refine Or.inl ⟨rfl, ?_⟩
          intro d hd
          rcases List.mem_cons.mp hd with rfl | hd
          · exact not_lt.mp hva
          · exact hall d hd
        · refine Or.inr ⟨a :: l₁, c, l₂, rfl, hres2, hlt, ?_, h2⟩
          intro d hd
          rcases List.mem_cons.mp hd with rfl | hd
          · exact lt_of_le_of_lt (not_lt.mp hva) hlt
          · exact h1 d hd

/-- C4: on a node with children (all already visited at least once),
`uct_select_child` returns the first child in child order attaining the
maximal UCB1 value `wins/visits + sqrt(2*ln(parent.visits)/visits)`: every
child before it has a strictly smaller value (the fold only replaces the
running maximum on strict improvement) and every child after it has a value
less than or equal to it. -/
theorem C4_uct_select_child_first_max (n : NodeT)
    (hne : n.childNodes ≠ []) (hvis : ∀ c ∈ n.childNodes, 1 ≤ c.visits) :
    ∃ c l₁ l₂, uct_select_child n = some c ∧
      n.childNodes = l₁ ++ c :: l₂ ∧
      (∀ d ∈ n.childNodes, ucb1Value n.visits d ≤ ucb1Value n.visits c) ∧
      (∀ d ∈ l₁, ucb1Value n.visits d < ucb1Value n.visits c) ∧
      (∀ d ∈ l₂, ucb1Value n.visits d ≤ ucb1Value n.visits c) := by
  rcases hl : n.childNodes with - | ⟨a, rest⟩
  · exact absurd hl hne
  · obtain ⟨res, hres, hcase⟩ :=
      selectFold_spec (ucb1Value n.visits) rest (ucb1Value n.visits a) a
    have hfold : selectFold (ucb1Value n.visits) (a :: rest) none = some res := by
      rw [selectFold]
      exact hres
    rcases hcase with ⟨rfl, hall⟩ | ⟨l₁, c, l₂, rfl, hres2, hlt, h1, h2⟩
    · refine ⟨a, [], rest, ?_, by simp, ?_, by simp, hall⟩
      · unfold uct_select_child
        rw [hl, hfold]
        rfl
      · intro d hd
        rcases List.mem_cons.mp hd with rfl | hd
        · exact le_refl _
        · exact hall d hd
    · subst hres2
      refine ⟨c, a :: l₁, l₂, ?_, by simp [hl], ?_, ?_, h2⟩
      · unfold uct_select_child
        rw [hl, hfold]
        rfl
      · intro d hd
        rcases List.mem_cons.mp hd with rfl | hd
        · exact le_of_lt hlt
        · rcases List.mem_append.mp hd with hd | hd
          · exact le_of_lt (h1 d hd)
          · rcases List.mem_cons.mp hd with rfl | hd
            · exact le_refl _
            · exact h2 d hd
      · intro d hd
        rcases List.mem_cons.mp hd with rfl | hd
        · exact hlt
        · exact h1 d hd

/-- Concrete instance discharging C4's hypotheses: a parent with two
once-visited children. -/
theorem C4_witness :
    (NodeT.mk none 0 2 [] 1 [NodeT.mk (some UP) 1 1 [] 0 [],
        NodeT.mk (some DOWN) 0 1 [] 0 []]).childNodes ≠ [] ∧
    (∀ c ∈ (NodeT.mk none 0 2 [] 1 [NodeT.mk (some UP) 1 1 [] 0 [],
        NodeT.mk (some DOWN) 0 1 [] 0 []]).childNodes, 1 ≤ c.visits) ∧
    (∃ c l₁ l₂,
      uct_select_child (NodeT.mk none 0 2 [] 1 [NodeT.mk (some UP) 1 1 [] 0 [],
        NodeT.mk (some DOWN) 0 1 [] 0 []]) = some c ∧
      (NodeT.mk none 0 2 [] 1 [NodeT.mk (some UP) 1 1 [] 0 [],
        NodeT.mk (some DOWN) 0 1 [] 0 []]).childNodes = l₁ ++ c :: l₂ ∧
      (∀ d ∈ (NodeT.mk none 0 2 [] 1 [NodeT.mk (some UP) 1 1 [] 0 [],
          NodeT.mk (some DOWN) 0 1 [] 0 []]).childNodes,
        ucb1Value 2 d ≤ ucb1Value 2 c) ∧
      (∀ d ∈ l₁, ucb1Value 2 d < ucb1Value 2 c) ∧
      (∀ d ∈ l₂, ucb1Value 2 d ≤ ucb1Value 2 c)) :=
  ⟨List.cons_ne_nil _ _, by decide,
    C4_uct_select_child_first_max _ (List.cons_ne_nil _ _) (by decide)⟩

/-- Ascending order by visit count, the order `pysorted` establishes. -/
def SortedV (l : List NodeT) : Prop :=
  List.Pairwise (fun a b => a.visits ≤ b.visits) l

theorem mem_of_getLast?_eq {l : List NodeT} {b : NodeT}
    (h : l.getLast? = some b) : b ∈ l := by
  obtain ⟨hne, heq⟩ := List.mem_getLast?_eq_getLast (Option.mem_def.mpr h)
  rw [heq]
  exact List.getLast_mem hne

theorem mem_insVisits {e c : NodeT} :
    ∀ {l : List NodeT}, e ∈ insVisits c l ↔ e = c ∨ e ∈ l
  | [] => by simp [insVisits]
  | d :: ds => by
    simp only [insVisits]
    split
    · simp [List.mem_cons]
    · rw [List.mem_cons, mem_insVisits, List.mem_cons]
      tauto

theorem sortedV_insVisits (c : NodeT) :
    ∀ {l : List NodeT}, SortedV l → SortedV (insVisits c l)
  | [], _ => List.pairwise_singleton _ _
  | d :: ds, h => by
    obtain ⟨hd, hds⟩ := List.pairwise_cons.mp h
    simp only [insVisits]
    split
    · refine List.pairwise_cons.mpr ⟨?_, h⟩
      intro e he
      rcases List.mem_cons.mp he with rfl | he
      · assumption
      · exact le_trans (by assumption) (hd e he)
    · refine List.pairwise_cons.mpr ⟨?_, sortedV_insVisits c hds⟩
      intro e he
      rcases mem_insVisits.mp he with rfl | he
      · exact le_of_lt (not_le.mp (by assumption))
      · exact hd e he

theorem pysorted_sorted : ∀ l : List NodeT, SortedV (pysorted l)
  | [] => List.Pairwise.nil
  | c :: cs => sortedV_insVisits c (pysorted_sorted cs)

theorem length_insVisits (c : NodeT) :
    ∀ l : List NodeT, (insVisits c l).length = l.length + 1
  | [] => rfl
  | d :: ds => by
    simp only [insVisits]
    split
    · rfl
    · simp [length_insVisits c ds]

theorem length_pysorted : ∀ l : List NodeT, (pysorted l).length = l.length
  | [] => rfl
  | c :: cs => by simp [pysorted, length_insVisits, length_pysorted cs]

theorem getLast?_cons_ne_nil {X : List NodeT} (d : NodeT) (h : X ≠ []) :
    (d :: X).getLast? = X.getLast? := by
  rcases X with - | ⟨x, xs⟩
  · exact absurd rfl h
  · exact List.getLast?_cons_cons

theorem insVisits_ne_nil (c : NodeT) (l : List NodeT) : insVisits c l ≠ [] := by
  intro h
  have := length_insVisits c l
  rw [h] at this
  simp at this

theorem getLast?_insVisits (c : NodeT) :
    ∀ (l : List NodeT) (b : NodeT), SortedV l → l.getLast? = some b →
      (insVisits c l).getLast? =
        some (if b.visits < c.visits then c else b)
  | [], b, _, hb => by simp at hb
  | [d], b, _, hb => by
    obtain rfl : d = b := by simpa using hb
    show (if c.visits ≤ d.visits then c :: [d] else
      d :: insVisits c []).getLast? = some (if d.visits < c.visits then c else d)
    by_cases hcb : c.visits ≤ d.visits
    · rw [if_pos hcb, if_neg (not_lt.mpr hcb)]
      rfl
    · rw [if_neg hcb, if_pos (not_le.mp hcb)]
      rfl
  | d₀ :: d₁ :: ds, b, hs, hb => by
    rw [List.getLast?_cons_cons] at hb
    obtain ⟨hd0, hs'⟩ := List.pairwise_cons.mp hs
    show (if c.visits ≤ d₀.visits then c :: d₀ :: d₁ :: ds else
      d₀ :: insVisits c (d₁ :: ds)).getLast? =
        some (if b.visits < c.visits then c else b)
    by_cases hcd : c.visits ≤ d₀.visits
    · rw [if_pos hcd]
      have hd0b : d₀.visits ≤ b.visits := hd0 b (mem_of_getLast?_eq hb)
      rw [if_neg (not_lt.mpr (le_trans hcd hd0b))]
      rw [getLast?_cons_ne_nil c (List.cons_ne_nil _ _), List.getLast?_cons_cons]
      exact hb
    · rw [if_neg hcd]
      rw [getLast?_cons_ne_nil d₀ (insVisits_ne_nil c (d₁ :: ds))]
      exact getLast?_insVisits c (d₁ :: ds) b hs' hb

theorem pysorted_getLast :
    ∀ (l : List NodeT) (c : NodeT), (pysorted l).getLast? = some c →
      ∃ l₁ l₂, l = l₁ ++ c :: l₂ ∧ (∀ d ∈ l₁, d.visits ≤ c.visits) ∧
        (∀ d ∈ l₂, d.visits < c.visits)
  | [], c, h => by simp [pysorted] at h
  | a :: l', c, h => by
    rcases hls : pysorted l' with - | ⟨p, ps⟩
    · have hl' : l' = [] := by
        have hlen := length_pysorted l'
        rw [hls] at hlen
        exact List.length_eq_zero.mp hlen.symm
      subst hl'
      simp only [pysorted, insVisits] at h
      obtain rfl : a = c := by simpa using h
      exact ⟨[], [], rfl, by simp, by simp⟩
    · have hsort : SortedV (pysorted l') := pysorted_sorted l'
      rcases hb : (pysorted l').getLast? with - | b
      · rw [hls] at hb
        simp at hb
      · have hins := getLast?_insVisits a (pysorted l') b hsort hb
        rw [pysorted, hins] at h
        obtain ⟨l₁, l₂, heq, h1, h2⟩ := pysorted_getLast l' b hb
        by_cases hba : b.visits < a.visits
        · rw [if_pos hba] at h
          obtain rfl : a = c := by simpa using h
          refine ⟨[], l', rfl, by simp, ?_⟩
          intro d hd
          rw [heq] at hd
          rcases List.mem_append.mp hd with hd | hd
          · exact lt_of_le_of_lt (h1 d hd) hba
          · rcases List.mem_cons.mp hd with rfl | hd
            · exact hba
            · exact lt_trans (h2 d hd) hba
        · rw [if_neg hba] at h
          obtain rfl : b = c := by simpa using h
          refine ⟨a :: l₁, l₂, by rw [heq, List.cons_append], ?_, h2⟩
          intro d hd
          rcases List.mem_cons.mp hd with rfl | hd
          · exact not_lt.mp hba
          · exact h1 d hd

/-- C2: when `UCT` returns, the returned move is the move of a direct child
of the root with the highest visit count, and among tied children it is the
one appearing last in child-creation order: the children split as
`l₁ ++ c :: l₂` with everything before `c` at most `c.visits` and
everything after strictly below it — exactly the last element of Python's
stable ascending `sorted(..., key = visits)`. -/
theorem C2_returns_most_visited (rootstate : GameState)
    (itermax maxdepth : Nat) (rng : Nat → Nat) (rootF : NodeT)
    (mv : Option Vector) (hN : 1 ≤ itermax)
    (hrun : UCT rootstate itermax maxdepth rng = some (rootF, mv)) :
    ∃ c l₁ l₂, rootF.childNodes = l₁ ++ c :: l₂ ∧ mv = c.move ∧
      (∀ d ∈ rootF.childNodes, d.visits ≤ c.visits) ∧
      (∀ d ∈ l₁, d.visits ≤ c.visits) ∧
      (∀ d ∈ l₂, d.visits < c.visits) := by
  unfold UCT UCTgen at hrun
  rcases hmk : NodeT.make none rootstate with - | root
  · rw [hmk] at hrun
    simp at hrun
  · rw [hmk] at hrun
    dsimp only at hrun
    rcases hloop : UCTloop uctSelectIdx rng rootstate maxdepth (itermax + 1)
        itermax root 0 with - | ⟨rootF', k'⟩
    · rw [hloop] at hrun
      simp at hrun
    · rw [hloop] at hrun
      dsimp only at hrun
      rcases hlast : (pysorted rootF'.childNodes).getLast? with - | c
      · rw [hlast] at hrun
        simp at hrun
      · rw [hlast] at hrun
        have hpr := Option.some.inj hrun
        obtain rfl : rootF' = rootF := congrArg Prod.fst hpr
        have hmv : c.move = mv := congrArg Prod.snd hpr
        obtain ⟨l₁, l₂, heq, h1, h2⟩ := pysorted_getLast _ _ hlast
        refine ⟨c, l₁, l₂, heq, hmv.symm, ?_, h1, h2⟩
        intro d hd
        rw [heq] at hd
        rcases List.mem_append.mp hd with hd | hd
        · exact h1 d hd
        · rcases List.mem_cons.mp hd with rfl | hd
          · exact le_refl _
          · exact le_of_lt (h2 d hd)

/-- The all-zero random oracle used by concrete search runs. -/
def rngZ : Nat → Nat := fun _ => 0

/-- Concrete instance discharging C2's hypotheses: a one-iteration search
on the sample state, whose full result tree is computed. -/
theorem C2_witness :
    (1 : Nat) ≤ 1 ∧
    UCT sample2 1 0 rngZ = some (NodeT.mk none 0 1 [DOWN, LEFT, RIGHT] 1
      [NodeT.mk (some UP) 0 1 [UP, DOWN, LEFT, RIGHT] 0 []], some UP) ∧
    (∃ c l₁ l₂,
      (NodeT.mk none 0 1 [DOWN, LEFT, RIGHT] 1
        [NodeT.mk (some UP) 0 1 [UP, DOWN, LEFT, RIGHT] 0 []]).childNodes =
        l₁ ++ c :: l₂ ∧
      (some UP : Option Vector) = c.move ∧
      (∀ d ∈ (NodeT.mk none 0 1 [DOWN, LEFT, RIGHT] 1
        [NodeT.mk (some UP) 0 1 [UP, DOWN, LEFT, RIGHT] 0 []]).childNodes,
        d.visits ≤ c.visits) ∧
      (∀ d ∈ l₁, d.visits ≤ c.visits) ∧
      (∀ d ∈ l₂, d.visits < c.visits)) :=
  ⟨le_refl 1, rfl,
    C2_returns_most_visited sample2 1 0 rngZ _ (some UP) (le_refl 1) rfl⟩

/-- Every node of the tree has at most its parent's visit count. -/
inductive VisLE : NodeT → Prop where
  | intro {n : NodeT} : (∀ d ∈ n.childNodes, d.visits ≤ n.visits) →
      (∀ d ∈ n.childNodes, VisLE d) → VisLE n

theorem VisLE_bound {n : NodeT} (h : VisLE n) :
    ∀ d ∈ n.childNodes, d.visits ≤ n.visits := by
  cases h
  assumption

theorem VisLE_sub {n : NodeT} (h : VisLE n) :
    ∀ d ∈ n.childNodes, VisLE d := by
  cases h
  assumption

theorem VisLE_of_nil {n : NodeT} (h : n.childNodes = []) : VisLE n :=
  VisLE.intro (fun d hd => absurd hd (by simp [h]))
    (fun d hd => absurd hd (by simp [h]))

/-- Every node of the tree has visited children, and is itself visited as
soon as it has children (expansion and backpropagation run in the same
iteration). -/
inductive GoodTree : NodeT → Prop where
  | intro {n : NodeT} : (n.childNodes ≠ [] → 1 ≤ n.visits) →
      (∀ d ∈ n.childNodes, 1 ≤ d.visits) →
      (∀ d ∈ n.childNodes, GoodTree d) → GoodTree n

theorem GoodTree.self {n : NodeT} (h : GoodTree n) :
    n.childNodes ≠ [] → 1 ≤ n.visits := by
  cases h
  assumption

theorem GoodTree_bound {n : NodeT} (h : GoodTree n) :
    ∀ d ∈ n.childNodes, 1 ≤ d.visits := by
  cases h
  assumption

theorem GoodTree_sub {n : NodeT} (h : GoodTree n) :
    ∀ d ∈ n.childNodes, GoodTree d := by
  cases h
  assumption

theorem GoodTree_of_nil {n : NodeT} (h : n.childNodes = []) : GoodTree n :=
  GoodTree.intro (fun hne => absurd h hne)
    (fun d hd => absurd hd (by simp [h]))
    (fun d hd => absurd hd (by simp [h]))

theorem make_spec {mv : Option Vector} {st : GameState} {child : NodeT}
    (h : NodeT.make mv st = some child) :
    child.visits = 0 ∧ child.childNodes = [] := by
  unfold NodeT.make at h
  split at h
  · exact Option.noConfusion h
  · obtain rfl := Option.some.inj h
    exact ⟨rfl, rfl⟩

/-- The facts one search iteration guarantees about the updated node: its
visit count grows by exactly one (the backpropagation pass updates every
node on the path once), and both tree invariants are preserved. -/
theorem iterate_spec (sel : NodeT → Nat) (rng : Nat → Nat) (maxdepth : Nat) :
    ∀ (fuel : Nat) (n : NodeT) (st : GameState) (k : Nat)
      (out : NodeT × GameState × Nat),
      iterate sel rng maxdepth fuel n st k = some out →
      out.1.visits = n.visits + 1 ∧ (VisLE n → VisLE out.1) ∧
      (GoodTree n → GoodTree out.1)
  | 0, n, st, k, out => by
    intro h
    simp [iterate] at h
  | fuel + 1, n, st, k, out => by
    intro h
    simp only [iterate] at h
    by_cases hcond : (n.untriedMoves = [] ∧ n.childNodes.isEmpty = false)
    · rw [if_pos hcond] at h
      rcases hc : n.childNodes[sel n]? with - | c
      · rw [hc] at h
        exact Option.noConfusion h
      · rw [hc] at h
        dsimp only at h
        rcases hmv : c.move with - | mvc
        · rw [hmv] at h
          exact Option.noConfusion h
        · rw [hmv] at h
          dsimp only at h
          rcases hdm : st.do_move mvc with - | st2
          · rw [hdm] at h
            exact Option.noConfusion h
          · rw [hdm] at h
            dsimp only at h
            rcases hit : iterate sel rng maxdepth fuel c st2 k with - | ⟨c2, stF, k2⟩
            · rw [hit] at h
              exact Option.noConfusion h
            · rw [hit] at h
              dsimp only at h
              rcases hgr : stF.get_result n.playerJustMoved with - | r
              · rw [hgr] at h
                exact Option.noConfusion h
              · rw [hgr] at h
                dsimp only at h
                obtain rfl := (Option.some.inj h).symm
                obtain ⟨ihv, ihV, ihG⟩ :=
                  iterate_spec sel rng maxdepth fuel c st2 k _ hit
                simp only at ihv
                have hcmem : c ∈ n.childNodes :=
                  List.mem_iff_getElem?.mpr ⟨sel n, hc⟩
                refine ⟨by simp, ?_, ?_⟩
                · intro hv
                  refine VisLE.intro ?_ ?_ <;>
                    simp only [visits_update, childNodes_update, visits_mk,
                      childNodes_mk]
                  · intro d hd
                    rcases List.mem_or_eq_of_mem_set hd with hd | rfl
                    · exact le_trans (VisLE_bound hv d hd) (Nat.le_succ _)
                    · have h1 := VisLE_bound hv c hcmem
                      omega
                  · intro d hd
                    rcases List.mem_or_eq_of_mem_set hd with hd | rfl
                    · exact VisLE_sub hv d hd
                    · exact ihV (VisLE_sub hv c hcmem)
                · intro hg
                  refine GoodTree.intro
                    (fun _ => by simp only [visits_update, visits_mk]; omega)
                    ?_ ?_ <;>
                    simp only [childNodes_update, childNodes_mk]
                  · intro d hd
                    rcases List.mem_or_eq_of_mem_set hd with hd | rfl
                    · exact GoodTree_bound hg d hd
                    · omega
                  · intro d hd
                    rcases List.mem_or_eq_of_mem_set hd with hd | rfl
                    · exact GoodTree_sub hg d hd
                    · exact ihG (GoodTree_sub hg c hcmem)
    · rw [if_neg hcond] at h
      by_cases hunt : n.untriedMoves ≠ []
      · rw [if_pos hunt] at h
        rcases hm : n.untriedMoves[rng k % n.untriedMoves.length]? with - | m
        · rw [hm] at h
          exact Option.noConfusion h
        · rw [hm] at h
          dsimp only at h
          rcases hdm : st.do_move m with - | st2
          · rw [hdm] at h
            exact Option.noConfusion h
          · rw [hdm] at h
            dsimp only at h
            rcases hmk : NodeT.make (some m) st2 with - | child
            · rw [hmk] at h
              exact Option.noConfusion h
            · rw [hmk] at h
              dsimp only at h
              rcases hro : rollout rng maxdepth st2 (k + 1) with - | ⟨stF, k2⟩
              · rw [hro] at h
                exact Option.noConfusion h
              · rw [hro] at h
                dsimp only at h
                rcases hgc : stF.get_result child.playerJustMoved with - | rc
                · rw [hgc] at h
                  exact Option.noConfusion h
                · rw [hgc] at h
                  dsimp only at h
                  rcases hgn : stF.get_result n.playerJustMoved with - | rn
                  · rw [hgn] at h
                    exact Option.noConfusion h
                  · rw [hgn] at h
                    dsimp only at h
                    obtain rfl := (Option.some.inj h).symm
                    obtain ⟨hv0, hch0⟩ := make_spec hmk
                    refine ⟨by simp, ?_, ?_⟩
                    · intro hv
                      refine VisLE.intro ?_ ?_ <;>
                        simp only [visits_update, childNodes_update, visits_mk,
                          childNodes_mk]
                      · intro d hd
                        rcases List.mem_append.mp hd with hd | hd
                        · exact le_trans (VisLE_bound hv d hd) (Nat.le_succ _)
                        · obtain rfl := List.mem_singleton.mp hd
                          simp only [visits_update, hv0]
                          omega
                      · intro d hd
                        rcases List.mem_append.mp hd with hd | hd
                        · exact VisLE_sub hv d hd
                        · obtain rfl := List.mem_singleton.mp hd
                          exact VisLE_of_nil (by simp [hch0])
                    · intro hg
                      refine GoodTree.intro
                        (fun _ => by simp only [visits_update, visits_mk]; omega)
                        ?_ ?_ <;>
                        simp only [childNodes_update, childNodes_mk]
                      · intro d hd
                        rcases List.mem_append.mp hd with hd | hd
                        · exact GoodTree_bound hg d hd
                        · obtain rfl := List.mem_singleton.mp hd
                          simp only [visits_update, hv0]
                          omega
                      · intro d hd
                        rcases List.mem_append.mp hd with hd | hd
                        · exact GoodTree_sub hg d hd
                        · obtain rfl := List.mem_singleton.mp hd
                          exact GoodTree_of_nil (by simp [hch0])
      · rw [if_neg hunt] at h
        rcases hro : rollout rng maxdepth st k with - | ⟨stF, k2⟩
        · rw [hro] at h
          exact Option.noConfusion h
        · rw [hro] at h
          dsimp only at h
          rcases hgn : stF.get_result n.playerJustMoved with - | r
          · rw [hgn] at h
            exact Option.noConfusion h
          · rw [hgn] at h
            dsimp only at h
            obtain rfl := (Option.some.inj h).symm
            refine ⟨by simp, ?_, ?_⟩
            · intro hv
              refine VisLE.intro ?_ ?_ <;>
                simp only [visits_update, childNodes_update]
              · intro d hd
                exact le_trans (VisLE_bound hv d hd) (Nat.le_succ _)
              · exact VisLE_sub hv
            · intro hg
              refine GoodTree.intro
                (fun _ => by simp only [visits_update]; omega) ?_ ?_ <;>
                simp only [childNodes_update]
              · exact GoodTree_bound hg
              · exact GoodTree_sub hg

theorem UCTloop_spec (sel : NodeT → Nat) (rng : Nat → Nat)
    (rootstate : GameState) (maxdepth fuel : Nat) :
    ∀ (i : Nat) (root : NodeT) (k : Nat) (out : NodeT × Nat),
      UCTloop sel rng rootstate maxdepth fuel i root k = some out →
      out.1.visits = root.visits + i ∧ (VisLE root → VisLE out.1) ∧
      (GoodTree root → GoodTree out.1)
  | 0, root, k, out => by
    intro h
    obtain rfl := (Option.some.inj h).symm
    exact ⟨rfl, fun hv => hv, fun hg => hg⟩
  | i + 1, root, k, out => by
    intro h
    simp only [UCTloop] at h
    rcases hit : iterate sel rng maxdepth fuel root rootstate.clone k
      with - | ⟨root2, stF, k2⟩
    · rw [hit] at h
      exact Option.noConfusion h
    · rw [hit] at h
      dsimp only at h
      obtain ⟨h1, h2, h3⟩ := iterate_spec sel rng maxdepth fuel root
        rootstate.clone k _ hit
      simp only at h1
      obtain ⟨i1, i2, i3⟩ := UCTloop_spec sel rng rootstate maxdepth fuel
        i root2 k2 out h
      exact ⟨by omega, fun hv => i2 (h2 hv), fun hg => i3 (h3 hg)⟩

/-- `SubNode n t`: `n` is a node of the tree `t` (reachable through child
lists); these are exactly the nodes the selection descent can visit. -/
inductive SubNode : NodeT → NodeT → Prop where
  | refl (t : NodeT) : SubNode t t
  | step {n c t : NodeT} : c ∈ t.childNodes → SubNode n c → SubNode n t

theorem VisLE_of_subnode {p t : NodeT} (hs : SubNode p t) (h : VisLE t) :
    VisLE p := by
  induction hs with
  | refl => exact h
  | step hmem hsub ih => exact ih (VisLE_sub h _ hmem)

theorem GoodTree_of_subnode {p t : NodeT} (hs : SubNode p t)
    (h : GoodTree t) : GoodTree p := by
  induction hs with
  | refl => exact h
  | step hmem hsub ih => exact ih (GoodTree_sub h _ hmem)

/-- C5: when a search of `itermax ≥ 1` iterations completes, the root's
visit count is exactly `itermax` (each iteration's backpropagation updates
every node on the selected path, root included, exactly once), every
non-root node has at most its parent's visit count, and hence every child
of the root has at most `itermax` visits. -/
theorem C5_visit_counts (rootstate : GameState) (itermax maxdepth : Nat)
    (rng : Nat → Nat) (rootF : NodeT) (mv : Option Vector) (hN : 1 ≤ itermax)
    (hrun : UCT rootstate itermax maxdepth rng = some (rootF, mv)) :
    rootF.visits = itermax ∧
    (∀ p d, SubNode p rootF → d ∈ p.childNodes → d.visits ≤ p.visits) ∧
    (∀ d ∈ rootF.childNodes, d.visits ≤ itermax) := by
  unfold UCT UCTgen at hrun
  rcases hmk : NodeT.make none rootstate with - | root
  · rw [hmk] at hrun
    simp at hrun
  · rw [hmk] at hrun
    dsimp only at hrun
    rcases hloop : UCTloop uctSelectIdx rng rootstate maxdepth (itermax + 1)
        itermax root 0 with - | ⟨rootF2, k2⟩
    · rw [hloop] at hrun
      simp at hrun
    · rw [hloop] at hrun
      dsimp only at hrun
      rcases hlast : (pysorted rootF2.childNodes).getLast? with - | c
      · rw [hlast] at hrun
        simp at hrun
      · rw [hlast] at hrun
        obtain rfl : rootF2 = rootF := congrArg Prod.fst (Option.some.inj hrun)
        obtain ⟨hv0, hch0⟩ := make_spec hmk
        obtain ⟨l1, l2, l3⟩ := UCTloop_spec uctSelectIdx rng rootstate maxdepth
          (itermax + 1) itermax root 0 _ hloop
        simp only at l1
        have hvis : rootF2.visits = itermax := by
          omega
        have hVL : VisLE rootF2 := l2 (VisLE_of_nil hch0)
        refine ⟨hvis, ?_, ?_⟩
        · intro p d hp hd
          exact VisLE_bound (VisLE_of_subnode hp hVL) d hd
        · intro d hd
          rw [← hvis]
          exact VisLE_bound hVL d hd

/-- Concrete instance discharging C5's hypotheses: the one-iteration search
on the sample state has root visit count 1. -/
theorem C5_witness :
    (1 : Nat) ≤ 1 ∧
    UCT sample2 1 0 rngZ = some (NodeT.mk none 0 1 [DOWN, LEFT, RIGHT] 1
      [NodeT.mk (some UP) 0 1 [UP, DOWN, LEFT, RIGHT] 0 []], some UP) ∧
    ((NodeT.mk none 0 1 [DOWN, LEFT, RIGHT] 1
      [NodeT.mk (some UP) 0 1 [UP, DOWN, LEFT, RIGHT] 0 []]).visits = 1 ∧
    (∀ p d, SubNode p (NodeT.mk none 0 1 [DOWN, LEFT, RIGHT] 1
        [NodeT.mk (some UP) 0 1 [UP, DOWN, LEFT, RIGHT] 0 []]) →
      d ∈ p.childNodes → d.visits ≤ p.visits) ∧
    (∀ d ∈ (NodeT.mk none 0 1 [DOWN, LEFT, RIGHT] 1
        [NodeT.mk (some UP) 0 1 [UP, DOWN, LEFT, RIGHT] 0 []]).childNodes,
      d.visits ≤ 1)) :=
  ⟨le_refl 1, rfl,
    C5_visit_counts sample2 1 0 rngZ _ (some UP) (le_refl 1) rfl⟩

/-- C10: on every tree the `UCT` loop produces (the trees on which the next
iteration's selection descent runs), every node that selection could call
`uct_select_child` on — a node with a non-empty child list — has a positive
visit count, and all its children have positive visit counts; hence the
divisions `wins/visits` and `2*log(visits)/visits` in the UCB1 formula
never see a zero visit count. -/
theorem C10_selection_well_defined (rootstate : GameState)
    (maxdepth fuel i : Nat) (rng : Nat → Nat) (root0 tree : NodeT) (k2 : Nat)
    (hmk : NodeT.make none rootstate = some root0)
    (hloop : UCTloop uctSelectIdx rng rootstate maxdepth fuel i root0 0 =
      some (tree, k2)) :
    ∀ n, SubNode n tree → n.childNodes ≠ [] →
      1 ≤ n.visits ∧ ∀ c ∈ n.childNodes, 1 ≤ c.visits := by
  obtain ⟨-, hch0⟩ := make_spec hmk
  obtain ⟨-, -, l3⟩ := UCTloop_spec uctSelectIdx rng rootstate maxdepth
    fuel i root0 0 _ hloop
  have hG : GoodTree tree := l3 (GoodTree_of_nil hch0)
  intro n hn hne
  have hGn := GoodTree_of_subnode hn hG
  exact ⟨hGn.self hne, GoodTree_bound hGn⟩

/-- Concrete instance discharging C10's hypotheses: the tree after one
iteration from the sample root. -/
theorem C10_witness :
    NodeT.make none sample2 =
      some (NodeT.mk none 0 0 [UP, DOWN, LEFT, RIGHT] 1 []) ∧
    UCTloop uctSelectIdx rngZ sample2 0 2 1
        (NodeT.mk none 0 0 [UP, DOWN, LEFT, RIGHT] 1 []) 0 =
      some (NodeT.mk none 0 1 [DOWN, LEFT, RIGHT] 1
        [NodeT.mk (some UP) 0 1 [UP, DOWN, LEFT, RIGHT] 0 []], 1) ∧
    (∀ n, SubNode n (NodeT.mk none 0 1 [DOWN, LEFT, RIGHT] 1
        [NodeT.mk (some UP) 0 1 [UP, DOWN, LEFT, RIGHT] 0 []]) →
      n.childNodes ≠ [] →
      1 ≤ n.visits ∧ ∀ c ∈ n.childNodes, 1 ≤ c.visits) :=
  ⟨rfl, rfl,
    C10_selection_well_defined sample2 0 2 1 rngZ _ _ 1 rfl rfl⟩

end SnakeAI
